import Mathlib

/-!
Verification of the .po catalog maintenance tool (`po/fill_translations.py`).

The tool parses a gettext .po catalog into entries (comment block, msgid
lines, msgstr lines), fills empty translations from a per-language table,
and rebuilds the file.  We embed the core shallowly: a Python string is a
`List Char`, a file's text is split into lines exactly as `str.split`
does, and each function of the source is translated into an executable
Lean definition.  The per-language translation tables and the filesystem
are external collaborators of the core (per the specification) and are
modelled as parameters: a table is a partial map from decoded msgid to
translation, the filesystem a partial map from language code to file
content.
-/

set_option autoImplicit false

namespace PoFill

/-- A line of the catalog: a Python string, embedded as its character list. -/
abbrev Line := List Char

/-- Python `l.startswith(p)`: `p` is a prefix of `l`. -/
def startswith (p l : List Char) : Bool :=
  match p with
  | [] => true
  | p0 :: ps =>
    match l with
    | [] => false
    | c :: cs => p0 == c && startswith ps cs

/-- Characters of the comment marker, `'#'`. -/
def kwComment : Line := ("#".data)

/-- Characters of the msgid keyword with its trailing space, `'msgid '`. -/
def kwMsgid : Line := ("msgid ".data)

/-- Characters of the msgstr keyword with its trailing space, `'msgstr '`. -/
def kwMsgstr : Line := ("msgstr ".data)

/-- Characters of the quote marker, `'"'`. -/
def kwQuote : Line := ("\"".data)

/-- One catalog record, exactly the dict built by `parse_po_file`:
comment lines, msgid field lines, msgstr field lines, all verbatim. -/
structure POEntry where
  comments : List Line
  msgid_lines : List Line
  msgstr_lines : List Line
deriving DecidableEq, Repr

/-- The mutable state of the `parse_po_file` loop: the accumulated
entries and the five local variables of the Python function. -/
structure PState where
  entries : List POEntry
  comments : List Line
  msgid_lines : List Line
  msgstr_lines : List Line
  in_msgid : Bool
  in_msgstr : Bool
deriving DecidableEq, Repr

/-- The state at the top of `parse_po_file`'s loop. -/
def initState : PState :=
  { entries := [], comments := [], msgid_lines := [], msgstr_lines := [],
    in_msgid := false, in_msgstr := false }

/-- The `entries.append({...})` block of `parse_po_file`: move the three
current-line buffers into a new entry and clear them (flags untouched;
each call site resets the flags it resets). -/
def sealEntry (s : PState) : PState :=
  { s with
    entries := s.entries ++ [⟨s.comments, s.msgid_lines, s.msgstr_lines⟩],
    comments := [], msgid_lines := [], msgstr_lines := [] }

/-- One iteration of the `for line in content.split('\n')` loop of
`parse_po_file`, branch for branch: comment marker, `msgid ` keyword,
`msgstr ` keyword, quoted continuation inside an open field, blank line
(Python `line.strip() == ''`), and the implicit else that drops the line. -/
def parseStep (s : PState) (line : Line) : PState :=
  if startswith kwComment line then
    let s2 := if s.in_msgstr && !s.msgid_lines.isEmpty then
        { sealEntry s with in_msgid := false, in_msgstr := false }
      else s
    { s2 with comments := s2.comments ++ [line] }
  else if startswith kwMsgid line then
    let s2 := if s.in_msgstr && !s.msgid_lines.isEmpty then sealEntry s else s
    { s2 with in_msgid := true, in_msgstr := false,
              msgid_lines := s2.msgid_lines ++ [line] }
  else if startswith kwMsgstr line then
    { s with in_msgid := false, in_msgstr := true,
             msgstr_lines := s.msgstr_lines ++ [line] }
  else if startswith kwQuote line && (s.in_msgid || s.in_msgstr) then
    if s.in_msgid then { s with msgid_lines := s.msgid_lines ++ [line] }
    else { s with msgstr_lines := s.msgstr_lines ++ [line] }
  else if line.all Char.isWhitespace then
    if s.in_msgstr && !s.msgid_lines.isEmpty then
      { sealEntry s with in_msgid := false, in_msgstr := false }
    else s
  else s

/-- The code after `parse_po_file`'s loop: seal a final entry when msgid
lines are pending ("Don't forget the last entry"). -/
def finishParse (s : PState) : List POEntry :=
  if !s.msgid_lines.isEmpty then (sealEntry s).entries else s.entries

/-- The body of `parse_po_file` after the file has been split into lines:
run the loop, then seal a final entry when msgid lines are pending. -/
def parsePoLines (lines : List Line) : List POEntry :=
  finishParse (lines.foldl parseStep initState)

/-- The lines a single entry contributes to the rebuilt file, in the
order `rebuild_po_file` emits them: comments, msgid lines, msgstr lines. -/
def entryLines (e : POEntry) : List Line :=
  e.comments ++ e.msgid_lines ++ e.msgstr_lines

/-- The loop of `rebuild_po_file`: a blank separator before every entry
except the first (`if i > 0`), each entry's lines verbatim, and a final
empty line so the joined text ends with a newline. -/
def rebuildLines (entries : List POEntry) : List Line :=
  (entries.foldl
    (fun acc e =>
      ((if acc.2 > 0 then acc.1 ++ [([] : Line)] else acc.1) ++ entryLines e,
       acc.2 + 1))
    (([], 0) : List Line × Nat)).1 ++ [[]]

/-- Python `content.split('\n')`: cut the character stream at every
newline; the empty text yields one empty line. -/
def splitLines : List Char → List Line
  | [] => [[]]
  | c :: rest =>
    if c = '\n' then [] :: splitLines rest
    else
      match splitLines rest with
      | [] => [[c]]
      | l :: ls => (c :: l) :: ls

/-- Python `'\n'.join(lines)`. -/
def joinLines : List Line → List Char
  | [] => []
  | [l] => l
  | l :: ls => l ++ '\n' :: joinLines ls

/-- `parse_po_file` on the text of the file (reading the file is modelled
by passing its content). -/
def parse_po_file (content : List Char) : List POEntry :=
  parsePoLines (splitLines content)

/-- `rebuild_po_file`: serialize the entries back to one text. -/
def rebuild_po_file (entries : List POEntry) : List Char :=
  joinLines (rebuildLines entries)

/-- The capture group of the regex fragment `"(.*)"` applied at the start
of `body` after an opening quote was consumed: `.*` cannot cross a
newline, and it is greedy, so the group runs to the last quote that
precedes the first newline of `body`; without such a quote there is no
match. -/
def beforeLastQuote (body : List Char) : Option (List Char) :=
  let pre := body.takeWhile (fun c => !(c == '\n'))
  match pre.reverse.dropWhile (fun c => !(c == '"')) with
  | [] => none
  | _ :: rest => some rest.reverse

/-- `re.match` of `<keyword>\s+"(.*)"` against a line: the keyword, at
least one whitespace character, an opening quote, then the group of
`beforeLastQuote`.  `re.match` only anchors at the start, so trailing
characters after the closing quote are allowed. -/
def reMatchKeywordQuoted (kw : Line) (line : Line) : Option (List Char) :=
  if startswith kw line then
    let after := line.drop kw.length
    if (after.takeWhile Char.isWhitespace).isEmpty then none
    else
      match after.dropWhile Char.isWhitespace with
      | '"' :: body => beforeLastQuote body
      | _ => none
  else none

/-- `re.match` of `"(.*)"` against a bare continuation line. -/
def reMatchBareQuoted (line : Line) : Option (List Char) :=
  match line with
  | '"' :: body => beforeLastQuote body
  | _ => none

/-- Characters of the bare keyword `'msgid'` used by the regex. -/
def reMsgid : Line := ("msgid".data)

/-- Characters of the bare keyword `'msgstr'` used by the regex. -/
def reMsgstr : Line := ("msgstr".data)

/-- The shared loop body of `extract_msgid` and `extract_msgstr`: a line
starting with the full keyword (keyword plus space) is matched against
`<keyword>\s+"(.*)"`, a line starting with a quote against `"(.*)"`; a
match contributes its capture group to `parts`, anything else
contributes nothing. -/
def extractStep (kwFull kwRe : Line) (parts : List Char) (line : Line) :
    List Char :=
  if startswith kwFull line then
    match reMatchKeywordQuoted kwRe line with
    | some g => parts ++ g
    | none => parts
  else if startswith kwQuote line then
    match reMatchBareQuoted line with
    | some g => parts ++ g
    | none => parts
  else parts

/-- `extract_msgid`: concatenate the capture groups of the field's lines. -/
def extract_msgid (msgid_lines : List Line) : List Char :=
  msgid_lines.foldl (extractStep kwMsgid reMsgid) []

/-- `extract_msgstr`: concatenate the capture groups of the field's lines. -/
def extract_msgstr (msgstr_lines : List Line) : List Char :=
  msgstr_lines.foldl (extractStep kwMsgstr reMsgstr) []

/-- A per-language translation table: the partial map from decoded msgid
to translated string that `TRANSLATIONS[lang]` supplies (an external
collaborator of the core, per the specification). -/
def TransTable : Type := List Char → Option (List Char)

/-- The single-line replacement field `f'msgstr "{new_msgstr}"'`. -/
def encode_msgstr (v : List Char) : Line :=
  ("msgstr \"".data) ++ v ++ ("\"".data)

/-- The body of the fill loop of `fill_translations` for one entry: fill
exactly when the decoded msgstr is empty and the table knows the decoded
msgid; report whether the entry was filled. -/
def fill_entry (trans : TransTable) (e : POEntry) : POEntry × Bool :=
  if extract_msgstr e.msgstr_lines = [] then
    match trans (extract_msgid e.msgid_lines) with
    | some v => ({ e with msgstr_lines := [encode_msgstr v] }, true)
    | none => (e, false)
  else (e, false)

/-- One iteration of the fill loop: apply `fill_entry` and bump the
`filled` counter when it reports a fill. -/
def fillStep (trans : TransTable) (acc : List POEntry × Nat) (e : POEntry) :
    List POEntry × Nat :=
  let r := fill_entry trans e
  (acc.1 ++ [r.1], acc.2 + (if r.2 then 1 else 0))

/-- The fill loop of `fill_translations` over all entries, with the
`filled` counter. -/
def fill_entries (trans : TransTable) (entries : List POEntry) :
    List POEntry × Nat :=
  entries.foldl (fillStep trans) ([], 0)

/-- `fill_translations(filepath, lang)` with the file's content passed in
place of the path: returns the `filled` count and, when the file is
rewritten, the new content (`none` means no write happens).  A language
absent from the tables is skipped before the file is even parsed. -/
def fill_translations (tables : String → Option TransTable) (lang : String)
    (content : List Char) : Nat × Option (List Char) :=
  match tables lang with
  | none => (0, none)
  | some tr =>
    let p := fill_entries tr (parse_po_file content)
    if p.2 > 0 then (p.2, some (rebuild_po_file p.1)) else (p.2, none)

/-- One iteration of the loop of `main`: the filesystem is the partial
map from language code to the content of `<lang>.po`; a missing file is
skipped, otherwise `fill_translations` runs and its write (if any) is
applied to the filesystem, and the filled count is added to the total. -/
def mainStep (tables : String → Option TransTable)
    (acc : Nat × (String → Option (List Char))) (lang : String) :
    Nat × (String → Option (List Char)) :=
  match acc.2 lang with
  | none => acc
  | some content =>
    let r := fill_translations tables lang content
    (acc.1 + r.1,
     match r.2 with
     | some c => fun l => if l = lang then some c else acc.2 l
     | none => acc.2)

/-- The loop of `main` over the configured language codes: the final
total of filled entries and the final filesystem. -/
def mainLoop (tables : String → Option TransTable)
    (fs : String → Option (List Char)) (langs : List String) :
    Nat × (String → Option (List Char)) :=
  langs.foldl (mainStep tables) (0, fs)

/-! ### Shape predicates

`LinesShape` and `EntryShape` describe the line shapes the parser itself
produces for a field and an entry; `NormalizedEntry` additionally demands
a non-empty translation field and newline-free lines, which is the form
every entry of a text in the tool's normalized output format has (single
blank line between entries, one trailing newline, each entry a comment
block followed by a msgid field and a msgstr field). -/

/-- The lines of one field: if there is a first line it carries the field
keyword, and every line is a keyword line or a quoted continuation. -/
def LinesShape (kw : Line) (ls : List Line) : Prop :=
  (∀ l ∈ ls.take 1, startswith kw l = true) ∧
  (∀ l ∈ ls, startswith kw l = true ∨ startswith kwQuote l = true)

/-- The shape every entry emitted by the parser has: comment lines carry
the comment marker, the msgid field is non-empty, and both fields are
keyword-plus-continuation shaped. -/
def EntryShape (e : POEntry) : Prop :=
  (∀ l ∈ e.comments, startswith kwComment l = true) ∧
  e.msgid_lines ≠ [] ∧
  LinesShape kwMsgid e.msgid_lines ∧
  LinesShape kwMsgstr e.msgstr_lines

instance (kw : Line) (ls : List Line) : Decidable (LinesShape kw ls) := by
  unfold LinesShape; infer_instance

instance (e : POEntry) : Decidable (EntryShape e) := by
  unfold EntryShape; infer_instance

/-- An entry of a normalized catalog text: parser shape, a non-empty
msgstr field, and no embedded newline in any line. -/
def NormalizedEntry (e : POEntry) : Prop :=
  EntryShape e ∧ e.msgstr_lines ≠ [] ∧ ∀ l ∈ entryLines e, '\n' ∉ l

instance (e : POEntry) : Decidable (NormalizedEntry e) := by
  unfold NormalizedEntry; infer_instance

/-- A text in the normalized form this tool itself produces: the
serialization of a sequence of normalized entries.  Modelled from the
spec: "single-blank-line separation and a single trailing newline (the
normalized form produced by this tool)". -/
def NormalizedText (text : List Char) : Prop :=
  ∃ es : List POEntry, (∀ e ∈ es, NormalizedEntry e) ∧ text = rebuild_po_file es

/-- A line is stored somewhere in the parser state: in a sealed entry or
in one of the three current-entry buffers. -/
def storedIn (s : PState) (l : Line) : Prop :=
  (∃ e ∈ s.entries, l ∈ entryLines e) ∨
  l ∈ s.comments ∨ l ∈ s.msgid_lines ∨ l ∈ s.msgstr_lines

/-- A line of one of the four classes `parse_po_file` can store: comment,
msgid keyword, msgstr keyword, or quoted continuation. -/
def recognizedLine (l : Line) : Prop :=
  startswith kwComment l = true ∨ startswith kwMsgid l = true ∨
  startswith kwMsgstr l = true ∨ startswith kwQuote l = true

/-- The invariant the parser maintains on its state: sealed entries are
entry-shaped with a non-empty msgstr field, the buffers are field-shaped,
and an open field flag implies its buffer is non-empty. -/
def StShape (s : PState) : Prop :=
  (∀ e ∈ s.entries, EntryShape e ∧ e.msgstr_lines ≠ []) ∧
  (∀ l ∈ s.comments, startswith kwComment l = true) ∧
  LinesShape kwMsgid s.msgid_lines ∧
  LinesShape kwMsgstr s.msgstr_lines ∧
  (s.in_msgstr = true → s.msgstr_lines ≠ []) ∧
  (s.in_msgid = true → s.msgid_lines ≠ [])

/-! ### Concrete fixtures used to instantiate the theorems -/

/-- A small catalog text in the tool's normalized form. -/
def wText : List Char := ("# c\nmsgid \"Warning\"\nmsgstr \"\"\n".data)

/-- A one-pair translation table, with a pair taken from the tool's
tables. -/
def wTrans : TransTable :=
  fun k => if k = ("Warning".data) then some ("Avertissement".data) else none

/-- Tables defined for the single language code `fr`. -/
def wTables : String → Option TransTable :=
  fun l => if l = "fr" then some wTrans else none

/-- Tables defined for no language code at all. -/
def wTablesNone : String → Option TransTable := fun _ => none

/-- A filesystem holding one catalog file, for the language `fr`. -/
def wFs : String → Option (List Char) :=
  fun l => if l = "fr" then some wText else none

/-! ### Basic lemmas about `startswith` and line shapes -/

theorem startswith_iff {p l : List Char} :
    startswith p l = true ↔ ∃ t, l = p ++ t := by
  induction p generalizing l with
  | nil => simp [startswith]
  | cons p0 ps ih =>
    cases l with
    | nil => simp [startswith]
    | cons c cs =>
      simp only [startswith, Bool.and_eq_true, beq_iff_eq, ih,
        List.cons_append, List.cons.injEq]
      constructor
      · rintro ⟨h1, t, h2⟩
        exact ⟨t, h1.symm, h2⟩
      · rintro ⟨t, h1, h2⟩
        exact ⟨h1.symm, t, h2⟩

theorem comment_shape {l : Line} (h : startswith kwComment l = true) :
    ∃ t, l = '#' :: t := by
  obtain ⟨t, rfl⟩ := startswith_iff.mp h
  exact ⟨t, rfl⟩

theorem msgid_shape {l : Line} (h : startswith kwMsgid l = true) :
    ∃ t, l = 'm' :: 's' :: 'g' :: 'i' :: 'd' :: ' ' :: t := by
  obtain ⟨t, rfl⟩ := startswith_iff.mp h
  exact ⟨t, rfl⟩

theorem msgstr_shape {l : Line} (h : startswith kwMsgstr l = true) :
    ∃ t, l = 'm' :: 's' :: 'g' :: 's' :: 't' :: 'r' :: ' ' :: t := by
  obtain ⟨t, rfl⟩ := startswith_iff.mp h
  exact ⟨t, rfl⟩

theorem quote_shape {l : Line} (h : startswith kwQuote l = true) :
    ∃ t, l = '"' :: t := by
  obtain ⟨t, rfl⟩ := startswith_iff.mp h
  exact ⟨t, rfl⟩

/-! ### How `parseStep` acts on each class of line

The states are written as explicit constructors so every lemma is a
definitional computation of the if-chain of `parseStep`. -/

theorem parseStep_comment (E : List POEntry) (C M S : List Line) (b : Bool)
    (t : Line) :
    parseStep ⟨E, C, M, S, b, false⟩ ('#' :: t) =
      ⟨E, C ++ ['#' :: t], M, S, b, false⟩ := rfl

theorem parseStep_msgid_noseal (E : List POEntry) (C M S : List Line)
    (b : Bool) (t : Line) :
    parseStep ⟨E, C, M, S, b, false⟩
        ('m' :: 's' :: 'g' :: 'i' :: 'd' :: ' ' :: t) =
      ⟨E, C, M ++ ['m' :: 's' :: 'g' :: 'i' :: 'd' :: ' ' :: t], S,
        true, false⟩ := rfl

theorem parseStep_msgstr (E : List POEntry) (C M S : List Line)
    (b1 b2 : Bool) (t : Line) :
    parseStep ⟨E, C, M, S, b1, b2⟩
        ('m' :: 's' :: 'g' :: 's' :: 't' :: 'r' :: ' ' :: t) =
      ⟨E, C, M, S ++ ['m' :: 's' :: 'g' :: 's' :: 't' :: 'r' :: ' ' :: t],
        false, true⟩ := rfl

theorem parseStep_quote_msgid (E : List POEntry) (C M S : List Line)
    (b2 : Bool) (t : Line) :
    parseStep ⟨E, C, M, S, true, b2⟩ ('"' :: t) =
      ⟨E, C, M ++ ['"' :: t], S, true, b2⟩ := rfl

theorem parseStep_quote_msgstr (E : List POEntry) (C M S : List Line)
    (t : Line) :
    parseStep ⟨E, C, M, S, false, true⟩ ('"' :: t) =
      ⟨E, C, M, S ++ ['"' :: t], false, true⟩ := rfl

theorem parseStep_blank_seal (E : List POEntry) (C S : List Line)
    (m0 : Line) (M : List Line) (b : Bool) :
    parseStep ⟨E, C, m0 :: M, S, b, true⟩ [] =
      ⟨E ++ [⟨C, m0 :: M, S⟩], [], [], [], false, false⟩ := rfl

theorem parseStep_blank_noseal (E : List POEntry) (C M S : List Line)
    (b : Bool) :
    parseStep ⟨E, C, M, S, b, false⟩ [] = ⟨E, C, M, S, b, false⟩ := rfl

/-! ### Folding whole line groups -/

theorem foldl_comments (cs : List Line)
    (h : ∀ l ∈ cs, startswith kwComment l = true) (E : List POEntry)
    (C M S : List Line) (b : Bool) :
    List.foldl parseStep ⟨E, C, M, S, b, false⟩ cs =
      ⟨E, C ++ cs, M, S, b, false⟩ := by
  induction cs generalizing C with
  | nil => simp
  | cons c cs ih =>
    obtain ⟨t, rfl⟩ := comment_shape (h c (by simp))
    rw [List.foldl_cons, parseStep_comment,
      ih (fun l hl => h l (by simp [hl]))]
    simp

theorem foldl_msgid_rest (ls : List Line)
    (h : ∀ l ∈ ls, startswith kwMsgid l = true ∨ startswith kwQuote l = true)
    (E : List POEntry) (C M S : List Line) :
    List.foldl parseStep ⟨E, C, M, S, true, false⟩ ls =
      ⟨E, C, M ++ ls, S, true, false⟩ := by
  induction ls generalizing M with
  | nil => simp
  | cons l ls ih =>
    have step : parseStep ⟨E, C, M, S, true, false⟩ l =
        ⟨E, C, M ++ [l], S, true, false⟩ := by
      rcases h l (by simp) with hl | hl
      · obtain ⟨t, rfl⟩ := msgid_shape hl
        exact parseStep_msgid_noseal ..
      · obtain ⟨t, rfl⟩ := quote_shape hl
        exact parseStep_quote_msgid ..
    rw [List.foldl_cons, step, ih (fun l hl => h l (by simp [hl]))]
    simp

theorem foldl_msgstr_rest (ls : List Line)
    (h : ∀ l ∈ ls, startswith kwMsgstr l = true ∨ startswith kwQuote l = true)
    (E : List POEntry) (C M S : List Line) :
    List.foldl parseStep ⟨E, C, M, S, false, true⟩ ls =
      ⟨E, C, M, S ++ ls, false, true⟩ := by
  induction ls generalizing S with
  | nil => simp
  | cons l ls ih =>
    have step : parseStep ⟨E, C, M, S, false, true⟩ l =
        ⟨E, C, M, S ++ [l], false, true⟩ := by
      rcases h l (by simp) with hl | hl
      · obtain ⟨t, rfl⟩ := msgstr_shape hl
        exact parseStep_msgstr ..
      · obtain ⟨t, rfl⟩ := quote_shape hl
        exact parseStep_quote_msgstr ..
    rw [List.foldl_cons, step, ih (fun l hl => h l (by simp [hl]))]
    simp

/-! ### Running the parser over one serialized entry -/

theorem runBlock (e : POEntry) (he : EntryShape e) (E : List POEntry) :
    List.foldl parseStep ⟨E, [], [], [], false, false⟩ (entryLines e) =
      if e.msgstr_lines = [] then
        ⟨E, e.comments, e.msgid_lines, [], true, false⟩
      else
        ⟨E, e.comments, e.msgid_lines, e.msgstr_lines, false, true⟩ := by
  obtain ⟨C, M, S⟩ := e
  obtain ⟨hc, hm, ⟨hmh, hma⟩, hsh, hsa⟩ := he
  simp only [entryLines] at *
  obtain ⟨m0, ms, rfl⟩ : ∃ m0 ms, M = m0 :: ms := by
    cases M with
    | nil => exact absurd rfl hm
    | cons m0 ms => exact ⟨m0, ms, rfl⟩
  obtain ⟨t, rfl⟩ := msgid_shape (hmh m0 (by simp))
  rw [List.foldl_append, List.foldl_append, foldl_comments C hc,
    List.foldl_cons, parseStep_msgid_noseal,
    foldl_msgid_rest ms (fun l hl => hma l (by simp [hl]))]
  cases S with
  | nil => simp
  | cons s0 ss =>
    obtain ⟨u, rfl⟩ := msgstr_shape (hsh s0 (by simp))
    rw [List.foldl_cons, parseStep_msgstr,
      foldl_msgstr_rest ss (fun l hl => hsa l (by simp [hl]))]
    simp

/-! ### The shape of `rebuildLines` -/

theorem rebuildLines_foldl_aux (es : List POEntry) (a : List Line) (n : Nat)
    (hn : 0 < n) :
    (es.foldl
      (fun acc e =>
        ((if acc.2 > 0 then acc.1 ++ [([] : Line)] else acc.1) ++ entryLines e,
         acc.2 + 1))
      (a, n)).1 = a ++ es.flatMap (fun e => [] :: entryLines e) := by
  induction es generalizing a n with
  | nil => simp
  | cons e es ih =>
    rw [List.foldl_cons]
    simp only [gt_iff_lt, hn, if_pos]
    rw [ih (a ++ [[]] ++ entryLines e) (n + 1) (by omega)]
    simp [List.flatMap_cons]

theorem flatMap_sep_concat (es : List POEntry) :
    es.flatMap (fun e => [] :: entryLines e) ++ [[]] =
      [] :: es.flatMap (fun e => entryLines e ++ [[]]) := by
  induction es with
  | nil => simp
  | cons e es ih =>
    simp only [List.flatMap_cons, List.cons_append, List.append_assoc, ih]
    simp

theorem rebuildLines_nil : rebuildLines [] = [[]] := rfl

theorem rebuildLines_eq_flatMap (e : POEntry) (es : List POEntry) :
    rebuildLines (e :: es) =
      (e :: es).flatMap (fun e => entryLines e ++ [[]]) := by
  unfold rebuildLines
  rw [List.foldl_cons]
  simp only [gt_iff_lt, Nat.lt_irrefl, if_false, List.nil_append, Nat.zero_add]
  rw [rebuildLines_foldl_aux es (entryLines e) 1 (by omega)]
  rw [List.append_assoc, flatMap_sep_concat, List.flatMap_cons]
  simp

/-! ### Folded parse of a whole rebuilt catalog -/

theorem runBlocks (es : List POEntry) (hs : ∀ e ∈ es, EntryShape e)
    (hlast : ∀ e ∈ es.dropLast, e.msgstr_lines ≠ []) (E : List POEntry) :
    finishParse
        (List.foldl parseStep ⟨E, [], [], [], false, false⟩
          (es.flatMap (fun e => entryLines e ++ [[]]))) = E ++ es := by
  induction es generalizing E with
  | nil => simp [finishParse, List.flatMap_nil]
  | cons e es ih =>
    rw [List.flatMap_cons, List.foldl_append, List.foldl_append,
      runBlock e (hs e (by simp))]
    obtain ⟨-, hm, -, -⟩ := hs e (by simp)
    obtain ⟨m0, ms, hM⟩ : ∃ m0 ms, e.msgid_lines = m0 :: ms := by
      cases hMc : e.msgid_lines with
      | nil => exact absurd hMc hm
      | cons m0 ms => exact ⟨m0, ms, rfl⟩
    cases es with
    | nil =>
      by_cases hS : e.msgstr_lines = []
      · rw [if_pos hS, List.foldl_cons, parseStep_blank_noseal,
          List.foldl_nil]
        simp only [List.flatMap_nil, List.foldl_nil, finishParse]
        rw [if_pos (by simp [hM])]
        simp [sealEntry, hS]
        rw [← hS]
      · rw [if_neg hS, hM, List.foldl_cons, parseStep_blank_seal,
          List.foldl_nil]
        simp only [List.flatMap_nil, List.foldl_nil, finishParse]
        rw [if_neg (by simp)]
        simp [sealEntry, ← hM]
    | cons e2 es2 =>
      have hSne : e.msgstr_lines ≠ [] := hlast e (by simp)
      rw [if_neg hSne, hM, List.foldl_cons, parseStep_blank_seal,
        List.foldl_nil]
      rw [ih (fun x hx => hs x (by simp [hx]))
        (fun x hx => hlast x (by simp_all [List.dropLast]))]
      simp [← hM]

theorem parsePoLines_rebuildLines (es : List POEntry)
    (hs : ∀ e ∈ es, EntryShape e)
    (hlast : ∀ e ∈ es.dropLast, e.msgstr_lines ≠ []) :
    parsePoLines (rebuildLines es) = es := by
  cases es with
  | nil => rfl
  | cons e es =>
    rw [rebuildLines_eq_flatMap]
    unfold parsePoLines initState
    exact runBlocks (e :: es) hs hlast []

/-! ### `splitLines` and `joinLines` -/

theorem splitLines_ne_nil (cs : List Char) : splitLines cs ≠ [] := by
  induction cs with
  | nil => simp [splitLines]
  | cons c rest ih =>
    rw [splitLines]
    split
    · simp
    · split
      · simp
      · simp

theorem splitLines_no_newline (content : List Char) :
    ∀ l ∈ splitLines content, '\n' ∉ l := by
  induction content with
  | nil => simp [splitLines]
  | cons c rest ih =>
    rw [splitLines]
    split
    · intro l hl
      rcases List.mem_cons.mp hl with rfl | hl
      · simp
      · exact ih l hl
    · next hc =>
      split
      · next hsr =>
        intro l hl
        rcases List.mem_singleton.mp hl with rfl
        simp [Ne.symm hc]
      · next l0 ls hsr =>
        intro l hl
        rcases List.mem_cons.mp hl with rfl | hl
        · have h0 : '\n' ∉ l0 := ih l0 (by rw [hsr]; exact List.mem_cons_self l0 ls)
          simp [Ne.symm hc, h0]
        · exact ih l (by rw [hsr]; exact List.mem_cons_of_mem _ hl)

theorem joinLines_cons (l : Line) (l2 : Line) (ls : List Line) :
    joinLines (l :: l2 :: ls) = l ++ '\n' :: joinLines (l2 :: ls) := rfl

theorem splitLines_single (l : Line) (h : '\n' ∉ l) : splitLines l = [l] := by
  induction l with
  | nil => rfl
  | cons c cs ih =>
    rw [splitLines, if_neg (by simp at h; exact fun hh => h.1 hh.symm),
      ih (by simp at h; exact h.2)]

theorem splitLines_line_append (l : Line) (t : List Char) (h : '\n' ∉ l) :
    splitLines (l ++ '\n' :: t) = l :: splitLines t := by
  induction l with
  | nil => simp [splitLines]
  | cons c cs ih =>
    rw [List.cons_append, splitLines,
      if_neg (by simp at h; exact fun hh => h.1 hh.symm),
      ih (by simp at h; exact h.2)]

theorem splitLines_joinLines (ls : List Line) (hne : ls ≠ [])
    (h : ∀ l ∈ ls, '\n' ∉ l) : splitLines (joinLines ls) = ls := by
  induction ls with
  | nil => exact absurd rfl hne
  | cons l ls ih =>
    cases ls with
    | nil => exact splitLines_single l (h l (by simp))
    | cons l2 ls2 =>
      rw [joinLines_cons, splitLines_line_append l _ (h l (by simp)),
        ih (by simp) (fun x hx => h x (by simp [hx]))]

theorem rebuildLines_ne_nil (es : List POEntry) : rebuildLines es ≠ [] := by
  unfold rebuildLines
  simp

theorem rebuildLines_mem (es : List POEntry) (l : Line)
    (hl : l ∈ rebuildLines es) : l = [] ∨ ∃ e ∈ es, l ∈ entryLines e := by
  cases es with
  | nil =>
    rw [rebuildLines_nil] at hl
    simp at hl
    exact Or.inl hl
  | cons e es =>
    rw [rebuildLines_eq_flatMap] at hl
    rw [List.mem_flatMap] at hl
    obtain ⟨x, hx, hlx⟩ := hl
    rcases List.mem_append.mp hlx with h1 | h1
    · exact Or.inr ⟨x, hx, h1⟩
    · exact Or.inl (List.mem_singleton.mp h1)

/-- The parse-of-rebuild identity on normalized entries, at the level of
whole file contents. -/
theorem parse_rebuild_normalized (es : List POEntry)
    (hs : ∀ e ∈ es, NormalizedEntry e) :
    parse_po_file (rebuild_po_file es) = es := by
  unfold parse_po_file rebuild_po_file
  rw [splitLines_joinLines (rebuildLines es) (rebuildLines_ne_nil es)]
  · exact parsePoLines_rebuildLines es (fun e he => (hs e he).1)
      (fun e he => (hs e (List.dropLast_subset es he)).2.1)
  · intro l hl
    rcases rebuildLines_mem es l hl with rfl | ⟨e, he, hle⟩
    · simp
    · exact (hs e he).2.2 l hle

/-! ### Which lines the parser stores -/

theorem storedIn_sealEntry (s : PState) (l : Line) :
    storedIn (sealEntry s) l ↔ storedIn s l := by
  unfold storedIn sealEntry entryLines
  constructor
  · rintro (⟨e, he, hle⟩ | hc | hm | hs')
    · rcases List.mem_append.mp he with he | he
      · exact Or.inl ⟨e, he, hle⟩
      · rcases List.mem_singleton.mp he with rfl
        simp only [List.mem_append] at hle
        tauto
    all_goals simp_all
  · rintro (⟨e, he, hle⟩ | hc | hm | hs')
    · exact Or.inl ⟨e, List.mem_append.mpr (Or.inl he), hle⟩
    all_goals
      refine Or.inl ⟨⟨s.comments, s.msgid_lines, s.msgstr_lines⟩,
        List.mem_append.mpr (Or.inr (List.mem_singleton.mpr rfl)), ?_⟩
    all_goals simp_all

theorem storedIn_parseStep {s : PState} {x l : Line}
    (h : storedIn (parseStep s x) l) :
    storedIn s l ∨ (l = x ∧ recognizedLine x) := by
  unfold parseStep at h
  split_ifs at h
  all_goals
    simp only [storedIn, entryLines, sealEntry, recognizedLine] at h ⊢
  all_goals aesop

theorem storedIn_foldl {lines : List Line} {s : PState} {l : Line}
    (h : storedIn (List.foldl parseStep s lines) l) :
    storedIn s l ∨ (l ∈ lines ∧ recognizedLine l) := by
  induction lines generalizing s with
  | nil => exact Or.inl h
  | cons x xs ih =>
    rw [List.foldl_cons] at h
    rcases ih h with h2 | h2
    · rcases storedIn_parseStep h2 with h3 | ⟨rfl, h3⟩
      · exact Or.inl h3
      · exact Or.inr ⟨by simp, h3⟩
    · exact Or.inr ⟨by simp [h2.1], h2.2⟩

theorem not_storedIn_initState (l : Line) : ¬ storedIn initState l := by
  simp [storedIn, initState]

theorem mem_finishParse_storedIn {s : PState} {e : POEntry} {l : Line}
    (he : e ∈ finishParse s)
    (hl : l ∈ e.comments ∨ l ∈ e.msgid_lines ∨ l ∈ e.msgstr_lines) :
    storedIn s l := by
  unfold finishParse at he
  split_ifs at he
  · simp only [sealEntry] at he
    rcases List.mem_append.mp he with he | he
    · exact Or.inl ⟨e, he, by simp only [entryLines, List.mem_append]; tauto⟩
    · rcases List.mem_singleton.mp he with rfl
      simp only [storedIn]
      tauto
  · exact Or.inl ⟨e, he, by simp only [entryLines, List.mem_append]; tauto⟩

/-- Every line stored in a parsed entry is a recognized line of the
input, taken verbatim. -/
theorem parsePoLines_stored {lines : List Line} {e : POEntry} {l : Line}
    (he : e ∈ parsePoLines lines)
    (hl : l ∈ e.comments ∨ l ∈ e.msgid_lines ∨ l ∈ e.msgstr_lines) :
    l ∈ lines ∧ recognizedLine l := by
  unfold parsePoLines at he
  have hst := mem_finishParse_storedIn he hl
  rcases storedIn_foldl hst with h | h
  · exact absurd h (not_storedIn_initState l)
  · exact h

/-! ### Lines the parser silently drops -/

theorem parseStep_unrecognized {x : Line}
    (h1 : startswith kwComment x = false)
    (h2 : startswith kwMsgid x = false)
    (h3 : startswith kwMsgstr x = false)
    (h5 : x.all Char.isWhitespace = false) (s : PState)
    (h4 : startswith kwQuote x = false ∨
      (s.in_msgid = false ∧ s.in_msgstr = false)) :
    parseStep s x = s := by
  unfold parseStep
  rw [h1, h2, h3]
  rcases h4 with h4 | ⟨h4a, h4b⟩
  · rw [h4]
    simp [h5]
  · rw [h4a, h4b]
    simp [h5]

/-! ### The parser's state invariant -/

theorem LinesShape_nil (kw : Line) : LinesShape kw [] := by
  constructor <;> simp

theorem LinesShape_singleton (kw : Line) (l : Line)
    (h : startswith kw l = true) : LinesShape kw [l] := by
  constructor <;> simp [h]

theorem LinesShape_append_keyword {kw : Line} {ls : List Line} {l : Line}
    (h : LinesShape kw ls) (hl : startswith kw l = true) :
    LinesShape kw (ls ++ [l]) := by
  obtain ⟨h1, h2⟩ := h
  constructor
  · cases ls with
    | nil => simpa using hl
    | cons a as =>
      intro y hy
      simp only [List.cons_append, List.take_succ_cons, List.take_zero,
        List.mem_singleton] at hy
      subst hy
      exact h1 _ (by simp)
  · intro y hy
    rcases List.mem_append.mp hy with hy | hy
    · exact h2 y hy
    · rcases List.mem_singleton.mp hy with rfl
      exact Or.inl hl

theorem LinesShape_append_quote {kw : Line} {ls : List Line} {l : Line}
    (h : LinesShape kw ls) (hne : ls ≠ [])
    (hl : startswith kwQuote l = true) : LinesShape kw (ls ++ [l]) := by
  obtain ⟨h1, h2⟩ := h
  constructor
  · cases ls with
    | nil => exact absurd rfl hne
    | cons a as =>
      intro y hy
      simp only [List.cons_append, List.take_succ_cons, List.take_zero,
        List.mem_singleton] at hy
      subst hy
      exact h1 _ (by simp)
  · intro y hy
    rcases List.mem_append.mp hy with hy | hy
    · exact h2 y hy
    · rcases List.mem_singleton.mp hy with rfl
      exact Or.inr hl

theorem StShape_initState : StShape initState := by
  refine ⟨?_, ?_, LinesShape_nil _, LinesShape_nil _, ?_, ?_⟩ <;>
    simp [initState]

theorem StShape_parseStep {s : PState} (h : StShape s) (x : Line) :
    StShape (parseStep s x) := by
  obtain ⟨hE, hC, hM, hS, hfs, hfm⟩ := h
  unfold parseStep
  split_ifs
  -- comment line, previous entry sealed
  · rename_i hc1 hB
    rw [Bool.and_eq_true] at hB
    have hmne : s.msgid_lines ≠ [] := by simpa using hB.2
    have hsne : s.msgstr_lines ≠ [] := hfs hB.1
    refine ⟨?_, ?_, LinesShape_nil _, LinesShape_nil _, by simp, by simp⟩
    · simp only [sealEntry]
      intro e he
      rcases List.mem_append.mp he with he | he
      · exact hE e he
      · rcases List.mem_singleton.mp he with rfl
        exact ⟨⟨hC, hmne, hM, hS⟩, hsne⟩
    · simp only [sealEntry, List.nil_append]
      intro l hl
      rcases List.mem_singleton.mp hl with rfl
      exact hc1
  -- comment line, no seal
  · rename_i hc1 hB
    refine ⟨hE, ?_, hM, hS, hfs, hfm⟩
    intro l hl
    rcases List.mem_append.mp hl with hl | hl
    · exact hC l hl
    · rcases List.mem_singleton.mp hl with rfl
      exact hc1
  -- msgid keyword line, previous entry sealed
  · rename_i hc1 hc2 hB
    rw [Bool.and_eq_true] at hB
    have hmne : s.msgid_lines ≠ [] := by simpa using hB.2
    have hsne : s.msgstr_lines ≠ [] := hfs hB.1
    refine ⟨?_, by simp [sealEntry], ?_, LinesShape_nil _, by simp,
      by simp [sealEntry]⟩
    · simp only [sealEntry]
      intro e he
      rcases List.mem_append.mp he with he | he
      · exact hE e he
      · rcases List.mem_singleton.mp he with rfl
        exact ⟨⟨hC, hmne, hM, hS⟩, hsne⟩
    · simpa [sealEntry] using LinesShape_singleton kwMsgid x hc2
  -- msgid keyword line, no seal
  · rename_i hc1 hc2 hB
    exact ⟨hE, hC, LinesShape_append_keyword hM hc2, hS, by simp, by simp⟩
  -- msgstr keyword line
  · rename_i hc1 hc2 hc3
    exact ⟨hE, hC, hM, LinesShape_append_keyword hS hc3, by simp, by simp [hfm]⟩
  -- quoted continuation into the open msgid field
  · rename_i hc1 hc2 hc3 hc4 hF
    rw [Bool.and_eq_true] at hc4
    exact ⟨hE, hC, LinesShape_append_quote hM (hfm hF) hc4.1, hS, hfs,
      by simp⟩
  -- quoted continuation into the open msgstr field
  · rename_i hc1 hc2 hc3 hc4 hF
    rw [Bool.and_eq_true, Bool.or_eq_true] at hc4
    have hstr : s.in_msgstr = true := by
      rcases hc4.2 with h | h
      · exact absurd h hF
      · exact h
    exact ⟨hE, hC, hM, LinesShape_append_quote hS (hfs hstr) hc4.1, by simp,
      hfm⟩
  -- blank line, entry sealed
  · rename_i hc1 hc2 hc3 hc4 hc6 hB
    rw [Bool.and_eq_true] at hB
    have hmne : s.msgid_lines ≠ [] := by simpa using hB.2
    have hsne : s.msgstr_lines ≠ [] := hfs hB.1
    refine ⟨?_, by simp [sealEntry], LinesShape_nil _, LinesShape_nil _,
      by simp, by simp⟩
    simp only [sealEntry]
    intro e he
    rcases List.mem_append.mp he with he | he
    · exact hE e he
    · rcases List.mem_singleton.mp he with rfl
      exact ⟨⟨hC, hmne, hM, hS⟩, hsne⟩
  -- blank line, nothing to seal
  · exact ⟨hE, hC, hM, hS, hfs, hfm⟩
  -- unrecognized line
  · exact ⟨hE, hC, hM, hS, hfs, hfm⟩

theorem StShape_foldl (lines : List Line) {s : PState} (h : StShape s) :
    StShape (List.foldl parseStep s lines) := by
  induction lines generalizing s with
  | nil => exact h
  | cons x xs ih => exact ih (StShape_parseStep h x)

/-- Every entry the parser emits is entry-shaped, and every entry except
possibly the last has a non-empty msgstr field. -/
theorem parsePoLines_shape (lines : List Line) :
    (∀ e ∈ parsePoLines lines, EntryShape e) ∧
    (∀ e ∈ (parsePoLines lines).dropLast, e.msgstr_lines ≠ []) := by
  have hst := StShape_foldl lines StShape_initState
  obtain ⟨hE, hC, hM, hS, hfs, hfm⟩ := hst
  unfold parsePoLines finishParse
  split_ifs with hm
  · have hmne : (List.foldl parseStep initState lines).msgid_lines ≠ [] := by
      simpa using hm
    constructor
    · simp only [sealEntry]
      intro e he
      rcases List.mem_append.mp he with he | he
      · exact (hE e he).1
      · rcases List.mem_singleton.mp he with rfl
        exact ⟨hC, hmne, hM, hS⟩
    · simp only [sealEntry]
      rw [List.dropLast_concat]
      intro e he
      exact (hE e he).2
  · exact ⟨fun e he => (hE e he).1,
      fun e he => (hE e (List.dropLast_subset _ he)).2⟩

/-! ### The codec: decode and encode lemmas -/

theorem beforeLastQuote_append_quote (f : List Char) (h : '\n' ∉ f) :
    beforeLastQuote (f ++ ['"']) = some f := by
  have htw : (f ++ ['"']).takeWhile (fun c => !(c == '\n')) = f ++ ['"'] := by
    induction f with
    | nil => rfl
    | cons c cs ih =>
      have hc : ¬c = '\n' := fun e => h (by simp [e])
      rw [List.cons_append, List.takeWhile_cons, if_pos (by simp [hc]),
        ih (fun e => h (List.mem_cons_of_mem _ e))]
  simp only [beforeLastQuote, htw, List.reverse_append, List.reverse_cons,
    List.reverse_nil, List.nil_append, List.singleton_append,
    List.dropWhile_cons]
  simp

theorem extractStep_msgid_first (parts f0 : List Char) :
    extractStep kwMsgid reMsgid parts (kwMsgid ++ '"' :: (f0 ++ ['"'])) =
      (match beforeLastQuote (f0 ++ ['"']) with
        | some g => parts ++ g
        | none => parts) := rfl

theorem extractStep_msgstr_first (parts v : List Char) :
    extractStep kwMsgstr reMsgstr parts (kwMsgstr ++ '"' :: (v ++ ['"'])) =
      (match beforeLastQuote (v ++ ['"']) with
        | some g => parts ++ g
        | none => parts) := rfl

theorem extractStep_quote (kwFull kwRe : Line) (parts f : List Char)
    (hkf : startswith kwFull ('"' :: (f ++ ['"'])) = false) :
    extractStep kwFull kwRe parts ('"' :: (f ++ ['"'])) =
      (match beforeLastQuote (f ++ ['"']) with
        | some g => parts ++ g
        | none => parts) := by
  unfold extractStep
  rw [hkf]
  simp only [Bool.false_eq_true, if_false]
  rfl

theorem extract_foldl_quotes (kwFull kwRe : Line)
    (hkf : ∀ t, startswith kwFull ('"' :: t) = false)
    (fs : List (List Char)) (hfs : ∀ f ∈ fs, '\n' ∉ f) (parts : List Char) :
    List.foldl (extractStep kwFull kwRe) parts
        (fs.map (fun f => '"' :: (f ++ ['"']))) = parts ++ fs.flatten := by
  induction fs generalizing parts with
  | nil => simp
  | cons f fs ih =>
    rw [List.map_cons, List.foldl_cons,
      extractStep_quote kwFull kwRe parts f (hkf _),
      beforeLastQuote_append_quote f (hfs f (by simp))]
    show List.foldl _ (parts ++ f) _ = _
    rw [ih (fun g hg => hfs g (by simp [hg])) (parts ++ f)]
    simp [List.flatten_cons]

/-- Decoding a msgid field written as a keyword line plus quoted
continuation lines concatenates the fragments in order. -/
theorem extract_msgid_multiline (f0 : List Char) (fs : List (List Char))
    (h0 : '\n' ∉ f0) (hfs : ∀ f ∈ fs, '\n' ∉ f) :
    extract_msgid ((kwMsgid ++ '"' :: (f0 ++ ['"'])) ::
        fs.map (fun f => '"' :: (f ++ ['"']))) = f0 ++ fs.flatten := by
  unfold extract_msgid
  rw [List.foldl_cons, extractStep_msgid_first,
    beforeLastQuote_append_quote f0 h0]
  show List.foldl _ ([] ++ f0) _ = _
  rw [extract_foldl_quotes kwMsgid reMsgid (fun t => rfl) fs hfs ([] ++ f0)]
  simp

theorem extract_msgstr_nil : extract_msgstr [] = [] := rfl

/-- Decoding the single-line replacement field recovers the value. -/
theorem extract_msgstr_encode (v : List Char) (h : '\n' ∉ v) :
    extract_msgstr [encode_msgstr v] = v := by
  show List.foldl (extractStep kwMsgstr reMsgstr) []
      [kwMsgstr ++ '"' :: (v ++ ['"'])] = v
  rw [List.foldl_cons, extractStep_msgstr_first,
    beforeLastQuote_append_quote v h]
  show List.foldl _ ([] ++ v) _ = _
  simp

/-! ### The fill pass -/

theorem fill_entry_hit (trans : TransTable) (e : POEntry) (v : List Char)
    (hS : extract_msgstr e.msgstr_lines = [])
    (hv : trans (extract_msgid e.msgid_lines) = some v) :
    fill_entry trans e =
      ({ e with msgstr_lines := [encode_msgstr v] }, true) := by
  unfold fill_entry
  rw [if_pos hS, hv]

theorem fill_entry_miss (trans : TransTable) (e : POEntry)
    (h : extract_msgstr e.msgstr_lines ≠ [] ∨
      trans (extract_msgid e.msgid_lines) = none) :
    fill_entry trans e = (e, false) := by
  unfold fill_entry
  rcases h with h | h
  · rw [if_neg h]
  · by_cases hS : extract_msgstr e.msgstr_lines = []
    · rw [if_pos hS, h]
    · rw [if_neg hS]

theorem fill_foldl_shift (trans : TransTable) (es : List POEntry) :
    ∀ (a : List POEntry) (n : Nat),
      List.foldl (fillStep trans) (a, n) es =
        (a ++ (fill_entries trans es).1, n + (fill_entries trans es).2) := by
  induction es with
  | nil => intro a n; simp [fill_entries]
  | cons e es ih =>
    intro a n
    rw [List.foldl_cons,
      show fillStep trans (a, n) e =
        (a ++ [(fill_entry trans e).1],
         n + (if (fill_entry trans e).2 then 1 else 0)) from rfl, ih]
    have h2 : fill_entries trans (e :: es) =
        ((fill_entry trans e).1 :: (fill_entries trans es).1,
         (if (fill_entry trans e).2 then 1 else 0) +
           (fill_entries trans es).2) := by
      unfold fill_entries
      rw [List.foldl_cons,
        show fillStep trans ([], 0) e =
          ([] ++ [(fill_entry trans e).1],
           0 + (if (fill_entry trans e).2 then 1 else 0)) from rfl, ih]
      simp [fill_entries]
    rw [h2]
    simp [List.append_assoc, Nat.add_assoc]

theorem fill_entries_cons (trans : TransTable) (e : POEntry)
    (es : List POEntry) :
    fill_entries trans (e :: es) =
      ((fill_entry trans e).1 :: (fill_entries trans es).1,
       (if (fill_entry trans e).2 then 1 else 0) +
         (fill_entries trans es).2) := by
  unfold fill_entries
  rw [List.foldl_cons,
    show fillStep trans ([], 0) e =
      ([] ++ [(fill_entry trans e).1],
       0 + (if (fill_entry trans e).2 then 1 else 0)) from rfl]
  rw [fill_foldl_shift]
  simp [fill_entries]

theorem fill_entries_fst_map (trans : TransTable) (es : List POEntry) :
    (fill_entries trans es).1 = es.map (fun e => (fill_entry trans e).1) := by
  induction es with
  | nil => rfl
  | cons e es ih =>
    rw [fill_entries_cons]
    simp [ih]

/-- A second application of `fill_entry` to an already processed entry
changes nothing and reports no fill, provided the table's values are
non-empty and newline-free (as the tool's hardcoded tables are). -/
theorem fill_entry_twice (trans : TransTable)
    (hv : ∀ k v, trans k = some v → v ≠ [] ∧ '\n' ∉ v) (e : POEntry) :
    fill_entry trans (fill_entry trans e).1 =
      ((fill_entry trans e).1, false) := by
  by_cases hS : extract_msgstr e.msgstr_lines = []
  · cases hT : trans (extract_msgid e.msgid_lines) with
    | none =>
      rw [fill_entry_miss trans e (Or.inr hT)]
      exact fill_entry_miss trans e (Or.inr hT)
    | some v =>
      rw [fill_entry_hit trans e v hS hT]
      apply fill_entry_miss
      left
      show extract_msgstr [encode_msgstr v] ≠ []
      rw [extract_msgstr_encode v (hv _ v hT).2]
      exact (hv _ v hT).1
  · rw [fill_entry_miss trans e (Or.inl hS)]
    exact fill_entry_miss trans e (Or.inl hS)

/-- The fill pass is idempotent on the entry list: a second pass changes
no entry and counts zero fills. -/
theorem fill_entries_idem (trans : TransTable)
    (hv : ∀ k v, trans k = some v → v ≠ [] ∧ '\n' ∉ v) (es : List POEntry) :
    fill_entries trans (fill_entries trans es).1 =
      ((fill_entries trans es).1, 0) := by
  induction es with
  | nil => rfl
  | cons e es ih =>
    rw [fill_entries_cons trans e es]
    show fill_entries trans
        ((fill_entry trans e).1 :: (fill_entries trans es).1) = _
    rw [fill_entries_cons, fill_entry_twice trans hv e, ih]
    simp

theorem fill_entry_shape (trans : TransTable) (e : POEntry)
    (h : EntryShape e) : EntryShape (fill_entry trans e).1 := by
  cases hT : trans (extract_msgid e.msgid_lines) with
  | none =>
    rw [fill_entry_miss trans e (Or.inr hT)]
    exact h
  | some v =>
    by_cases hS : extract_msgstr e.msgstr_lines = []
    · rw [fill_entry_hit trans e v hS hT]
      obtain ⟨h1, h2, h3, h4⟩ := h
      refine ⟨h1, h2, h3, LinesShape_singleton _ _ ?_⟩
      rw [startswith_iff]
      exact ⟨'"' :: (v ++ ['"']), rfl⟩
    · rw [fill_entry_miss trans e (Or.inl hS)]
      exact h

theorem fill_entry_msgstr_ne (trans : TransTable) (e : POEntry)
    (h : e.msgstr_lines ≠ []) :
    ((fill_entry trans e).1).msgstr_lines ≠ [] := by
  cases hT : trans (extract_msgid e.msgid_lines) with
  | none =>
    rw [fill_entry_miss trans e (Or.inr hT)]
    exact h
  | some v =>
    by_cases hS : extract_msgstr e.msgstr_lines = []
    · rw [fill_entry_hit trans e v hS hT]
      simp
    · rw [fill_entry_miss trans e (Or.inl hS)]
      exact h

theorem fill_entry_no_newline (trans : TransTable) (e : POEntry)
    (hv : ∀ k v, trans k = some v → v ≠ [] ∧ '\n' ∉ v)
    (h : ∀ l ∈ entryLines e, '\n' ∉ l) :
    ∀ l ∈ entryLines (fill_entry trans e).1, '\n' ∉ l := by
  cases hT : trans (extract_msgid e.msgid_lines) with
  | none =>
    rw [fill_entry_miss trans e (Or.inr hT)]
    exact h
  | some v =>
    by_cases hS : extract_msgstr e.msgstr_lines = []
    · rw [fill_entry_hit trans e v hS hT]
      intro l hl
      simp only [entryLines, List.mem_append] at hl h
      rcases hl with (hl | hl) | hl
      · exact h l (by tauto)
      · exact h l (by tauto)
      · rcases List.mem_singleton.mp hl with rfl
        intro hmem
        simp only [encode_msgstr, List.mem_append] at hmem
        rcases hmem with (hmem | hmem) | hmem
      -- goals: newline in the literal prefix, the value, the literal quote
        · exact absurd hmem (by decide)
        · exact (hv _ v hT).2 hmem
        · exact absurd hmem (by decide)
    · rw [fill_entry_miss trans e (Or.inl hS)]
      exact h

/-! ### Round trip after a fill pass -/

theorem parse_entry_lines_no_newline (content : List Char) :
    ∀ e ∈ parse_po_file content, ∀ l ∈ entryLines e, '\n' ∉ l := by
  intro e he l hl
  simp only [entryLines, List.mem_append] at hl
  have hstored := parsePoLines_stored he (by tauto)
  exact splitLines_no_newline content l hstored.1

theorem parse_rebuild_after_fill (trans : TransTable)
    (hv : ∀ k v, trans k = some v → v ≠ [] ∧ '\n' ∉ v)
    (content : List Char) :
    parse_po_file
        (rebuild_po_file (fill_entries trans (parse_po_file content)).1) =
      (fill_entries trans (parse_po_file content)).1 := by
  have hshape := parsePoLines_shape (splitLines content)
  have h1 : ∀ e ∈ (fill_entries trans (parse_po_file content)).1,
      EntryShape e := by
    rw [fill_entries_fst_map]
    intro e he
    rw [List.mem_map] at he
    obtain ⟨x, hx, rfl⟩ := he
    exact fill_entry_shape trans x (hshape.1 x hx)
  have h2 : ∀ e ∈ (fill_entries trans (parse_po_file content)).1.dropLast,
      e.msgstr_lines ≠ [] := by
    rw [fill_entries_fst_map, ← List.map_dropLast]
    intro e he
    rw [List.mem_map] at he
    obtain ⟨x, hx, rfl⟩ := he
    exact fill_entry_msgstr_ne trans x (hshape.2 x hx)
  have h3 : ∀ l ∈ rebuildLines (fill_entries trans (parse_po_file content)).1,
      '\n' ∉ l := by
    intro l hl
    rcases rebuildLines_mem _ l hl with rfl | ⟨e, he, hle⟩
    · simp
    · rw [fill_entries_fst_map] at he
      rw [List.mem_map] at he
      obtain ⟨x, hx, rfl⟩ := he
      exact fill_entry_no_newline trans x hv
        (parse_entry_lines_no_newline content x hx) l hle
  show parsePoLines
      (splitLines (joinLines (rebuildLines
        (fill_entries trans (parse_po_file content)).1))) = _
  rw [splitLines_joinLines _ (rebuildLines_ne_nil _) h3]
  exact parsePoLines_rebuildLines _ h1 h2

/-- Running `fill_translations` on the result of a previous run (the
rewritten file if one was written, the untouched file otherwise) fills
nothing and writes nothing. -/
theorem fill_translations_idem (tables : String → Option TransTable)
    (lang : String) (content : List Char)
    (hv : ∀ tr, tables lang = some tr →
      ∀ k v, tr k = some v → v ≠ [] ∧ '\n' ∉ v) :
    fill_translations tables lang
        ((fill_translations tables lang content).2.getD content) =
      (0, none) := by
  unfold fill_translations
  cases hT : tables lang with
  | none => rfl
  | some tr =>
    simp only
    by_cases hp : (fill_entries tr (parse_po_file content)).2 > 0
    · rw [if_pos hp]
      simp only [Option.getD_some]
      rw [parse_rebuild_after_fill tr (hv tr hT) content,
        fill_entries_idem tr (hv tr hT)]
      rfl
    · rw [if_neg hp]
      simp only [Option.getD_none]
      rw [if_neg hp]
      have h0 : (fill_entries tr (parse_po_file content)).2 = 0 := by omega
      rw [h0]

/-! ## The claims -/

/-- Claim C1: for every catalog text in the normalized form this tool
produces (entries separated by single blank lines, single trailing
newline, each entry a comment block followed by msgid and msgstr
fields), `rebuild_po_file (parse_po_file text)` equals `text` byte for
byte. -/
theorem claim_C1_roundtrip (text : List Char) (h : NormalizedText text) :
    rebuild_po_file (parse_po_file text) = text := by
  obtain ⟨es, hs, rfl⟩ := h
  rw [parse_rebuild_normalized es hs]

theorem claim_C1_roundtrip_witness :
    NormalizedText (("# c\nmsgid \"a\"\nmsgstr \"x\"\n".data)) ∧
    rebuild_po_file
        (parse_po_file (("# c\nmsgid \"a\"\nmsgstr \"x\"\n".data))) =
      (("# c\nmsgid \"a\"\nmsgstr \"x\"\n".data)) := by
  have hn : NormalizedText (("# c\nmsgid \"a\"\nmsgstr \"x\"\n".data)) := by
    refine ⟨[⟨[("# c".data)], [("msgid \"a\"".data)],
      [("msgstr \"x\"".data)]⟩], ?_, ?_⟩
    · decide
    · decide
  exact ⟨hn, claim_C1_roundtrip _ hn⟩

/-- Claim C2, counterexample: on the input lines `msgid "a"`, `# c`,
`msgstr "x"`, `hello`, the parser emits one entry in which the comment
line has been moved before the msgid line, and the line `hello` is
stored in no entry at all — so not every input line is preserved in its
original relative order. -/
theorem claim_C2_counterexample :
    parsePoLines [("msgid \"a\"".data), ("# c".data), ("msgstr \"x\"".data),
        ("hello".data)] =
      [⟨[("# c".data)], [("msgid \"a\"".data)], [("msgstr \"x\"".data)]⟩] ∧
    ¬ (∀ l ∈ [("msgid \"a\"".data), ("# c".data), ("msgstr \"x\"".data),
        ("hello".data)],
        ∃ e ∈ parsePoLines [("msgid \"a\"".data), ("# c".data),
          ("msgstr \"x\"".data), ("hello".data)],
          l ∈ e.comments ∨ l ∈ e.msgid_lines ∨ l ∈ e.msgstr_lines) := by
  constructor
  · decide
  · decide

/-- Claim C2, amended: every line the parser stores in an entry is a
verbatim line of the input (the parser invents no lines), but not every
input line is stored — unrecognized lines are dropped, and comment lines
arriving after a field opened are emitted before that entry's field
lines rather than in original position. -/
theorem claim_C2_amended (lines : List Line) (e : POEntry)
    (he : e ∈ parsePoLines lines) (l : Line)
    (hl : l ∈ e.comments ∨ l ∈ e.msgid_lines ∨ l ∈ e.msgstr_lines) :
    l ∈ lines :=
  (parsePoLines_stored he hl).1

theorem claim_C2_amended_witness :
    (⟨[], [("msgid \"a\"".data)], [("msgstr \"x\"".data)]⟩ : POEntry) ∈
      parsePoLines [("msgid \"a\"".data), ("msgstr \"x\"".data)] ∧
    ("msgid \"a\"".data) ∈
      [("msgid \"a\"".data), ("msgstr \"x\"".data)] :=
  ⟨by decide,
   claim_C2_amended [("msgid \"a\"".data), ("msgstr \"x\"".data)]
     ⟨[], [("msgid \"a\"".data)], [("msgstr \"x\"".data)]⟩ (by decide)
     (("msgid \"a\"".data)) (by decide)⟩

/-- Claim C3: for every entry and translation table, if the decoded
msgstr is empty and the table maps the decoded msgid to `v`, the fill
pass replaces `msgstr_lines` by the single line `msgstr "v"` and counts
the entry as filled; in every other case the entry is returned untouched
and not counted — an existing non-empty translation is never
overwritten. -/
theorem claim_C3_fill_policy (trans : TransTable) (e : POEntry) :
    (∀ v, extract_msgstr e.msgstr_lines = [] →
      trans (extract_msgid e.msgid_lines) = some v →
      fill_entry trans e =
        ({ e with msgstr_lines := [encode_msgstr v] }, true)) ∧
    ((extract_msgstr e.msgstr_lines ≠ [] ∨
        trans (extract_msgid e.msgid_lines) = none) →
      fill_entry trans e = (e, false)) :=
  ⟨fun v hS hv => fill_entry_hit trans e v hS hv,
   fun h => fill_entry_miss trans e h⟩

theorem claim_C3_fill_policy_witness :
    fill_entry wTrans
        ⟨[], [("msgid \"Warning\"".data)], [("msgstr \"\"".data)]⟩ =
      (⟨[], [("msgid \"Warning\"".data)],
        [("msgstr \"Avertissement\"".data)]⟩, true) ∧
    fill_entry wTrans
        ⟨[], [("msgid \"Warning\"".data)],
          [("msgstr \"Already Translated\"".data)]⟩ =
      (⟨[], [("msgid \"Warning\"".data)],
        [("msgstr \"Already Translated\"".data)]⟩, false) :=
  ⟨(claim_C3_fill_policy wTrans _).1 (("Avertissement".data))
      (by decide) (by decide),
   (claim_C3_fill_policy wTrans _).2 (Or.inl (by decide))⟩

/-- Claim C4: running the fill pass a second time, on the file content a
first run produced (the rewritten content if it wrote, the unchanged
content otherwise), fills zero entries and writes nothing, provided the
language's table maps no msgid to an empty or newline-containing value
(true of the tool's hardcoded tables). -/
theorem claim_C4_fill_idempotent (tables : String → Option TransTable)
    (lang : String) (content : List Char)
    (hv : ∀ tr, tables lang = some tr →
      ∀ k v, tr k = some v → v ≠ [] ∧ '\n' ∉ v) :
    fill_translations tables lang
        ((fill_translations tables lang content).2.getD content) =
      (0, none) :=
  fill_translations_idem tables lang content hv

theorem claim_C4_fill_idempotent_witness :
    fill_translations wTables "fr"
        ((fill_translations wTables "fr" wText).2.getD wText) =
      (0, none) := by
  apply claim_C4_fill_idempotent
  intro tr htr k v hkv
  have h2 : some wTrans = some tr := htr
  obtain rfl : wTrans = tr := Option.some.inj h2
  by_cases hk : k = ("Warning".data)
  · subst hk
    have hv2 : some (("Avertissement".data)) = some v := by
      rw [show wTrans (("Warning".data)) =
        some (("Avertissement".data)) from rfl] at hkv
      exact hkv
    obtain rfl : ("Avertissement".data) = v := Option.some.inj hv2
    constructor
    · decide
    · decide
  · exfalso
    have : wTrans k = none := by
      unfold wTrans
      rw [if_neg hk]
    rw [this] at hkv
    exact Option.noConfusion hkv

/-- Claim C5: a msgid field written as a keyword line with quoted value
followed by quoted continuation lines decodes to the concatenation of
the fragments, in order, with no separator (stated for newline-free
fragments, as every line produced by splitting a file is); in
particular `msgid ""` / `"Part one "` / `"part two"` decodes to
`Part one part two`. -/
theorem claim_C5_multiline_decode :
    (∀ (f0 : List Char) (fs : List (List Char)), '\n' ∉ f0 →
      (∀ f ∈ fs, '\n' ∉ f) →
      extract_msgid ((kwMsgid ++ '"' :: (f0 ++ ['"'])) ::
          fs.map (fun f => '"' :: (f ++ ['"']))) = f0 ++ fs.flatten) ∧
    extract_msgid [("msgid \"\"".data), ("\"Part one \"".data),
        ("\"part two\"".data)] = ("Part one part two".data) := by
  constructor
  · intro f0 fs h0 hfs
    exact extract_msgid_multiline f0 fs h0 hfs
  · decide

theorem claim_C5_multiline_decode_witness :
    extract_msgid ((kwMsgid ++ '"' :: (("Part one ".data) ++ ['"'])) ::
        [("part two".data)].map (fun f => '"' :: (f ++ ['"']))) =
      ("Part one ".data) ++ [("part two".data)].flatten :=
  claim_C5_multiline_decode.1 (("Part one ".data)) [("part two".data)]
    (by decide) (by decide)

/-- The write happens exactly when the filled count is positive. -/
theorem fill_translations_none_iff (tables : String → Option TransTable)
    (lang : String) (content : List Char) :
    (fill_translations tables lang content).1 = 0 ↔
      (fill_translations tables lang content).2 = none := by
  unfold fill_translations
  cases hT : tables lang with
  | none => simp
  | some tr =>
    simp only
    by_cases hp : (fill_entries tr (parse_po_file content)).2 > 0
    · rw [if_pos hp]
      constructor
      · intro h
        omega
      · intro h
        exact Option.noConfusion h
    · rw [if_neg hp]
      have h0 : (fill_entries tr (parse_po_file content)).2 = 0 := by omega
      simp [h0]

/-- Claim C6: the catalog file is rewritten exactly when at least one
entry was filled; with zero fillable entries no write is produced and
the filesystem is left untouched by the processing step. -/
theorem claim_C6_write_only_when_filled (tables : String → Option TransTable)
    (lang : String) (content : List Char) :
    ((fill_translations tables lang content).1 = 0 ↔
      (fill_translations tables lang content).2 = none) ∧
    (∀ (total : Nat) (fs : String → Option (List Char)),
      fs lang = some content →
      (fill_translations tables lang content).1 = 0 →
      (mainStep tables (total, fs) lang).2 = fs) := by
  refine ⟨fill_translations_none_iff tables lang content, ?_⟩
  intro total fs hfs h0
  unfold mainStep
  simp only
  rw [hfs]
  simp only
  rw [(fill_translations_none_iff tables lang content).mp h0]

theorem claim_C6_write_only_when_filled_witness :
    ((fill_translations wTablesNone "fr" wText).1 = 0 ↔
      (fill_translations wTablesNone "fr" wText).2 = none) ∧
    (mainStep wTablesNone (0, wFs) "fr").2 = wFs :=
  ⟨(claim_C6_write_only_when_filled wTablesNone "fr" wText).1,
   (claim_C6_write_only_when_filled wTablesNone "fr" wText).2 0 wFs
     (by decide) (by decide)⟩

/-- Claim C7: a language with no translation table yields zero fills and
no write, without the catalog being parsed at all; and a missing catalog
file makes the main loop skip that language and continue with the rest
of the list unchanged. -/
theorem claim_C7_missing_cases (tables : String → Option TransTable)
    (lang : String) (content : List Char)
    (fs : String → Option (List Char)) (rest : List String) :
    (tables lang = none →
      fill_translations tables lang content = (0, none)) ∧
    (fs lang = none →
      mainLoop tables fs (lang :: rest) = mainLoop tables fs rest) := by
  constructor
  · intro h
    unfold fill_translations
    rw [h]
  · intro h
    unfold mainLoop
    rw [List.foldl_cons]
    have hstep : mainStep tables (0, fs) lang = (0, fs) := by
      unfold mainStep
      simp only
      rw [h]
    rw [hstep]

theorem claim_C7_missing_cases_witness :
    fill_translations wTablesNone "uk" wText = (0, none) ∧
    mainLoop wTables wFs ("de" :: ["fr"]) = mainLoop wTables wFs ["fr"] :=
  ⟨(claim_C7_missing_cases wTablesNone "uk" wText wFs []).1 rfl,
   (claim_C7_missing_cases wTables "de" wText wFs ["fr"]).2 (by decide)⟩

/-- Claim C8: every entry `parse_po_file` emits has at least one msgid
line, and an input consisting only of comment lines produces no entry at
all — comments accumulate until a real entry opens. -/
theorem claim_C8_msgid_invariant (lines : List Line) :
    (∀ e ∈ parsePoLines lines, e.msgid_lines ≠ []) ∧
    ((∀ l ∈ lines, startswith kwComment l = true) →
      parsePoLines lines = []) := by
  constructor
  · intro e he
    exact ((parsePoLines_shape lines).1 e he).2.1
  · intro hc
    show finishParse
        (List.foldl parseStep ⟨[], [], [], [], false, false⟩ lines) = []
    rw [foldl_comments lines hc]
    simp [finishParse]

theorem claim_C8_msgid_invariant_witness :
    (⟨[("# c".data)], [("msgid \"a\"".data)], [("msgstr \"x\"".data)]⟩ :
        POEntry).msgid_lines ≠ [] ∧
    parsePoLines [("# one".data), ("# two".data)] = [] :=
  ⟨(claim_C8_msgid_invariant
      [("# c".data), ("msgid \"a\"".data), ("msgstr \"x\"".data)]).1
     ⟨[("# c".data)], [("msgid \"a\"".data)], [("msgstr \"x\"".data)]⟩
     (by decide),
   (claim_C8_msgid_invariant [("# one".data), ("# two".data)]).2
     (by decide)⟩

/-- Claim C9: a line that is not a comment, not a `msgid ` or `msgstr `
keyword line, not quote-initial and not blank is silently dropped: it is
stored in no entry, it does not appear in the rebuilt text, and the
parser state is unchanged by it; a quote-initial line arriving while no
field is open is likewise dropped without effect. -/
theorem claim_C9_dropped_lines (lines : List Line) (l : Line) (s : PState) :
    (startswith kwComment l = false → startswith kwMsgid l = false →
     startswith kwMsgstr l = false → startswith kwQuote l = false →
     l.all Char.isWhitespace = false →
      (∀ e ∈ parsePoLines lines,
        l ∉ e.comments ∧ l ∉ e.msgid_lines ∧ l ∉ e.msgstr_lines) ∧
      l ∉ rebuildLines (parsePoLines lines) ∧
      parseStep s l = s) ∧
    (startswith kwQuote l = true → s.in_msgid = false →
      s.in_msgstr = false → parseStep s l = s) := by
  constructor
  · intro h1 h2 h3 h4 h5
    have hnr : ¬ recognizedLine l := by
      unfold recognizedLine
      simp [h1, h2, h3, h4]
    have hstored : ∀ e ∈ parsePoLines lines,
        l ∉ e.comments ∧ l ∉ e.msgid_lines ∧ l ∉ e.msgstr_lines := by
      intro e he
      refine ⟨?_, ?_, ?_⟩ <;> intro hmem <;>
        exact hnr (parsePoLines_stored he (by tauto)).2
    refine ⟨hstored, ?_, parseStep_unrecognized h1 h2 h3 h5 s (Or.inl h4)⟩
    intro hmem
    rcases rebuildLines_mem _ l hmem with rfl | ⟨e, he, hle⟩
    · simp at h5
    · have hne := hstored e he
      simp only [entryLines, List.mem_append] at hle
      tauto
  · intro hq hm hs2
    obtain ⟨t, rfl⟩ := quote_shape hq
    have e1 : startswith kwComment ('"' :: t) = false := rfl
    have e2 : startswith kwMsgid ('"' :: t) = false := rfl
    have e3 : startswith kwMsgstr ('"' :: t) = false := rfl
    have e5 : ('"' :: t).all Char.isWhitespace = false := rfl
    exact parseStep_unrecognized e1 e2 e3 e5 s (Or.inr ⟨hm, hs2⟩)

theorem claim_C9_dropped_lines_witness :
    ((∀ e ∈ parsePoLines [("msgid_plural \"x\"".data),
        ("msgid \"a\"".data), ("msgstr \"y\"".data)],
       ("msgid_plural \"x\"".data) ∉ e.comments ∧
       ("msgid_plural \"x\"".data) ∉ e.msgid_lines ∧
       ("msgid_plural \"x\"".data) ∉ e.msgstr_lines) ∧
     ("msgid_plural \"x\"".data) ∉
       rebuildLines (parsePoLines [("msgid_plural \"x\"".data),
         ("msgid \"a\"".data), ("msgstr \"y\"".data)]) ∧
     parseStep initState (("msgid_plural \"x\"".data)) = initState) ∧
    parseStep initState (("\"stray\"".data)) = initState :=
  ⟨(claim_C9_dropped_lines
      [("msgid_plural \"x\"".data), ("msgid \"a\"".data),
        ("msgstr \"y\"".data)]
      (("msgid_plural \"x\"".data)) initState).1
     (by decide) (by decide) (by decide) (by decide) (by decide),
   (claim_C9_dropped_lines [] (("\"stray\"".data)) initState).2
     (by decide) rfl rfl⟩

/-- Claim C10: when the input ends with a comment block and an open
msgid field and no msgstr line was seen, the parser seals a final entry
with an empty msgstr-line sequence; that sequence decodes to the empty
string, so the fill pass treats the entry as untranslated and, when the
table knows the msgid, inserts a msgstr line the original lines never
contained. -/
theorem claim_C10_open_msgid_at_eof (cs ml : List Line)
    (trans : TransTable) (v : List Char)
    (hc : ∀ l ∈ cs, startswith kwComment l = true)
    (hm : ml ≠ []) (hsh : LinesShape kwMsgid ml)
    (hv : trans (extract_msgid ml) = some v) :
    parsePoLines (cs ++ ml) = [⟨cs, ml, []⟩] ∧
    extract_msgstr ([] : List Line) = [] ∧
    fill_entries trans [⟨cs, ml, []⟩] =
      ([⟨cs, ml, [encode_msgstr v]⟩], 1) ∧
    encode_msgstr v ∉ cs ++ ml := by
  obtain ⟨m0, ms, rfl⟩ : ∃ m0 ms, ml = m0 :: ms := by
    cases hM : ml with
    | nil => exact absurd hM hm
    | cons m0 ms => exact ⟨m0, ms, rfl⟩
  refine ⟨?_, rfl, ?_, ?_⟩
  · obtain ⟨t, hteq⟩ := msgid_shape (hsh.1 m0 (by simp))
    show finishParse
        (List.foldl parseStep ⟨[], [], [], [], false, false⟩
          (cs ++ m0 :: ms)) = _
    rw [List.foldl_append, foldl_comments cs hc, List.foldl_cons, hteq,
      parseStep_msgid_noseal,
      foldl_msgid_rest ms (fun x hx => hsh.2 x (by simp [hx]))]
    simp [finishParse, sealEntry, hteq]
  · rw [fill_entries_cons,
      fill_entry_hit trans ⟨cs, m0 :: ms, []⟩ v rfl hv]
    simp [fill_entries]
  · intro hmem
    rcases List.mem_append.mp hmem with h | h
    · have hcm := hc _ h
      have hfalse : startswith kwComment (encode_msgstr v) = false := rfl
      rw [hfalse] at hcm
      exact Bool.false_ne_true hcm
    · rcases hsh.2 _ h with hk | hk
      · have hfalse : startswith kwMsgid (encode_msgstr v) = false := rfl
        rw [hfalse] at hk
        exact Bool.false_ne_true hk
      · have hfalse : startswith kwQuote (encode_msgstr v) = false := rfl
        rw [hfalse] at hk
        exact Bool.false_ne_true hk

theorem claim_C10_open_msgid_at_eof_witness :
    parsePoLines ([("# c".data)] ++ [("msgid \"Warning\"".data)]) =
      [⟨[("# c".data)], [("msgid \"Warning\"".data)], []⟩] ∧
    extract_msgstr ([] : List Line) = [] ∧
    fill_entries wTrans
        [⟨[("# c".data)], [("msgid \"Warning\"".data)], []⟩] =
      ([⟨[("# c".data)], [("msgid \"Warning\"".data)],
        [encode_msgstr (("Avertissement".data))]⟩], 1) ∧
    encode_msgstr (("Avertissement".data)) ∉
      [("# c".data)] ++ [("msgid \"Warning\"".data)] :=
  claim_C10_open_msgid_at_eof [("# c".data)] [("msgid \"Warning\"".data)]
    wTrans (("Avertissement".data)) (by decide) (by decide)
    (by constructor <;> decide) (by decide)

end PoFill
